import Mathlib

/-!
Verification of the DirCat automation scripts.

The development shallowly embeds the two Python scripts of the repository:

* `build-test.py` — the executable-path resolver `get_executable_paths`
  (candidate generation, order-preserving deduplication, Windows `.exe`
  suffixing) and the path selection performed by
  `run_cmake_build_and_execute`.
* `release.py` — the git-tag creation and deletion flows `create_tag` and
  `delete_tag`, modelled over an abstract environment assigning a success
  value to each git invocation and recording the trace of commands run.

Path joining follows `os.path.join` with the POSIX separator `"/"`
(the separator choice is irrelevant to the suffixing step, the only part of
the resolver that depends on the platform).  Python's `str.lower` is
modelled as character-wise ASCII lowercasing (`Char.toLower`), which agrees
with Python on the ASCII inputs these scripts handle.
-/

/-- `b.startswith("/")` for the single-character POSIX separator. -/
def startsWithSep (s : String) : Bool := s.data.head? = some '/'

/-- `path.endswith("/")` for the single-character POSIX separator. -/
def endsWithSep (s : String) : Bool := s.data.getLast? = some '/'

/-- One folding step of `posixpath.join`: absolute components reset the
path, otherwise a separator is inserted unless already present. -/
def joinOne (path b : String) : String :=
  if startsWithSep b then b
  else if path.data.isEmpty || endsWithSep path then path ++ b
  else path ++ "/" ++ b

/-- `os.path.join(a, *comps)` with POSIX separator semantics. -/
def osJoin (a : String) (comps : List String) : String := comps.foldl joinOne a

/-- The conventional CMake configuration labels from `build-test.py`. -/
def common_configs : List String := ["Debug", "Release", "RelWithDebInfo", "MinSizeRel"]

/-- The candidate list built by `get_executable_paths` before the
deduplication step: the per-config path, the flat path, then the four
conventional configuration subdirectories. -/
def raw_paths (build_dir target_name config : String) : List String :=
  [osJoin build_dir [config, target_name], osJoin build_dir [target_name]]
    ++ common_configs.map (fun conf => osJoin build_dir [conf, target_name])

/-- Order-preserving first-occurrence deduplication (the effect of
`list(dict.fromkeys(paths))`), with an explicit set of already-seen keys. -/
def dedupeAux (seen : List String) : List String → List String
  | [] => []
  | x :: xs => if x ∈ seen then dedupeAux seen xs else x :: dedupeAux (x :: seen) xs

/-- `list(dict.fromkeys(l))`: keep the first occurrence of each element. -/
def dedupe (l : List String) : List String := dedupeAux [] l

/-- Python `str.lower`, restricted to ASCII case mapping. -/
def pyLower (s : String) : String := String.mk (s.data.map Char.toLower)

/-- Python `s.endswith(suf)`. -/
def pyEndsWith (s suf : String) : Bool := suf.data.isSuffixOf s.data

/-- The per-path Windows adjustment
`p + ".exe" if not p.lower().endswith(".exe") else p`. -/
def addExe (p : String) : String :=
  if pyEndsWith (pyLower p) ".exe" then p else p ++ ".exe"

/-- The deduplicated candidate list, i.e. the value of `paths` in
`get_executable_paths` just after `list(dict.fromkeys(paths))` and before
the platform check — the "pre-suffix" list. -/
def candidate_paths (build_dir target_name config : String) : List String :=
  dedupe (raw_paths build_dir target_name config)

/-- `get_executable_paths(build_dir, target_name, config)`; the boolean
records whether `sys.platform == "win32"`. -/
def get_executable_paths (build_dir target_name config : String) (is_win32 : Bool) :
    List String :=
  if is_win32 then (candidate_paths build_dir target_name config).map addExe
  else candidate_paths build_dir target_name config

/-- The executable selection on line 43 of `build-test.py`:
`next((p for p in possible_execs if os.path.exists(p)), possible_execs[0] if
possible_execs else os.path.join(build_dir, config, target_name))`, with the
filesystem abstracted into the predicate `path_exists`. -/
def choose_exec (is_win32 : Bool) (path_exists : String → Bool)
    (build_dir target_name config : String) : String :=
  match (get_executable_paths build_dir target_name config is_win32).find? path_exists with
  | some p => p
  | none =>
    match get_executable_paths build_dir target_name config is_win32 with
    | [] => osJoin build_dir [config, target_name]
    | p :: _ => p

/-- A string avoiding the POSIX path separator. -/
def noSep (s : String) : Prop := '/' ∉ s.data

instance (s : String) : Decidable (noSep s) := by unfold noSep; infer_instance

/-- Trailing-separator normalisation: the common shape `b` takes inside a
join once at least one relative component has been appended. -/
def normTrail (b : String) : String := if endsWithSep b then b else b ++ "/"

/-- The git invocations made by `release.py`, one constructor per command
shape appearing in the script. -/
inductive GitCmd where
  /-- `git rev-parse --abbrev-ref HEAD` -/
  | revParseHead : GitCmd
  /-- `git push origin <branch>` -/
  | pushBranch (branch : String) : GitCmd
  /-- `git tag -a <tag> -m <msg>` -/
  | tagAnnotate (tag msg : String) : GitCmd
  /-- `git push origin <tag>` -/
  | pushTag (tag : String) : GitCmd
  /-- `git push --delete origin <tag>` -/
  | pushDeleteTag (tag : String) : GitCmd
  /-- `git tag --delete <tag>` -/
  | tagDelete (tag : String) : GitCmd
deriving DecidableEq

/-- The abstract world `release.py` runs against: whether each git
invocation succeeds, and what `git rev-parse --abbrev-ref HEAD` prints when
it succeeds. -/
structure GitEnv where
  run : GitCmd → Bool
  headBranch : String

/-- `get_current_branch()`: the branch name on success, `None` on a failed
`git rev-parse` (the exception is caught inside the function). -/
def get_current_branch (env : GitEnv) : Option String :=
  if env.run .revParseHead then some env.headBranch else none

/-- `if not message: message = f"Release ..."`: Python treats both `None`
and the empty string as missing. -/
def effectiveMessage (tag_name : String) (message : Option String) : String :=
  match message with
  | none => "Release " ++ tag_name
  | some m => if m = "" then "Release " ++ tag_name else m

/-- The unconditional tail of `create_tag`: annotate, then push the tag;
the first failure aborts.  Returns the success flag and the trace of git
commands actually run (`pre` are the commands run before this phase). -/
def tagAndPush (env : GitEnv) (tag_name msg : String) (pre : List GitCmd) :
    Bool × List GitCmd :=
  if env.run (.tagAnnotate tag_name msg) then
    if env.run (.pushTag tag_name) then
      (true, pre ++ [.tagAnnotate tag_name msg, .pushTag tag_name])
    else (false, pre ++ [.tagAnnotate tag_name msg, .pushTag tag_name])
  else (false, pre ++ [.tagAnnotate tag_name msg])

/-- `create_tag(tag_name, message, push_commits)`: success flag plus the
trace of git commands run, in order. -/
def create_tag (env : GitEnv) (tag_name : String) (message : Option String)
    (push_commits : Bool) : Bool × List GitCmd :=
  let msg := effectiveMessage tag_name message
  if push_commits then
    match get_current_branch env with
    | some br =>
      if env.run (.pushBranch br) then
        tagAndPush env tag_name msg [.revParseHead, .pushBranch br]
      else (false, [.revParseHead, .pushBranch br])
    | none => tagAndPush env tag_name msg [.revParseHead]
  else tagAndPush env tag_name msg []

/-- `delete_tag(tag_name)`: remote deletion first, then local deletion;
the first failure aborts.  Success flag plus trace. -/
def delete_tag (env : GitEnv) (tag_name : String) : Bool × List GitCmd :=
  if env.run (.pushDeleteTag tag_name) then
    if env.run (.tagDelete tag_name) then
      (true, [.pushDeleteTag tag_name, .tagDelete tag_name])
    else (false, [.pushDeleteTag tag_name, .tagDelete tag_name])
  else (false, [.pushDeleteTag tag_name])

/-- Exit status of `release.py` for the `create` action (`main` calls
`sys.exit(1)` on failure, otherwise falls off the end with status 0). -/
def main_exit_create (env : GitEnv) (tag_name : String) (message : Option String)
    (push_commits : Bool) : Nat :=
  if (create_tag env tag_name message push_commits).1 then 0 else 1

/-- Exit status of `release.py` for the `delete` action. -/
def main_exit_delete (env : GitEnv) (tag_name : String) : Nat :=
  if (delete_tag env tag_name).1 then 0 else 1

/-! ### Basic facts used throughout -/

/-! ### Basic string facts -/

theorem data_ne_nil_of_ne_empty {s : String} (h : s ≠ "") : s.data ≠ [] := by
  intro hd
  exact h (String.ext hd)

theorem startsWithSep_eq_false_of_noSep {s : String} (h : noSep s) :
    startsWithSep s = false := by
  unfold startsWithSep
  cases hh : s.data.head? with
  | none => simp
  | some c =>
    have hc : c ∈ s.data := List.mem_of_mem_head? hh
    have : c ≠ '/' := fun he => h (he ▸ hc)
    simp [this]

theorem normTrail_data_ne_nil {b : String} (hb : b ≠ "") :
    (normTrail b).data ≠ [] := by
  unfold normTrail
  split
  · exact data_ne_nil_of_ne_empty hb
  · simp

theorem endsWithSep_append_eq_false {s x : String} (hx0 : x ≠ "") (hx : noSep x) :
    endsWithSep (s ++ x) = false := by
  unfold endsWithSep
  have hxd : x.data ≠ [] := data_ne_nil_of_ne_empty hx0
  rw [String.data_append, List.getLast?_append]
  cases hh : x.data.getLast? with
  | none => exact absurd (List.getLast?_eq_none_iff.mp hh) hxd
  | some c =>
    have hc : c ∈ x.data := List.mem_of_getLast?_eq_some hh
    have : c ≠ '/' := fun he => hx (he ▸ hc)
    simp [Option.or, this]

/-! ### Shape of `osJoin` on the relevant inputs -/

theorem joinOne_eq {b x : String} (hb : b ≠ "") (hx : noSep x) :
    joinOne b x = normTrail b ++ x := by
  unfold joinOne normTrail
  rw [startsWithSep_eq_false_of_noSep hx]
  have hbd : b.data.isEmpty = false := by
    simp [List.isEmpty_eq_false, data_ne_nil_of_ne_empty hb]
  rw [hbd]
  cases he : endsWithSep b <;> simp [he]

theorem osJoin_single {b t : String} (hb : b ≠ "") (ht : noSep t) :
    osJoin b [t] = normTrail b ++ t := by
  unfold osJoin
  simp only [List.foldl]
  exact joinOne_eq hb ht

theorem osJoin_pair {b x t : String} (hb : b ≠ "") (hx0 : x ≠ "") (hx : noSep x)
    (ht : noSep t) :
    osJoin b [x, t] = normTrail b ++ x ++ "/" ++ t := by
  unfold osJoin
  simp only [List.foldl]
  rw [joinOne_eq hb hx]
  unfold joinOne
  rw [startsWithSep_eq_false_of_noSep ht]
  have h1 : (normTrail b ++ x).data.isEmpty = false := by
    simp [List.isEmpty_eq_false, String.data_append, List.append_eq_nil,
      normTrail_data_ne_nil hb]
  rw [h1, endsWithSep_append_eq_false hx0 hx]
  simp

theorem osJoin_pair_data (b x t : String) (hb : b ≠ "") (hx0 : x ≠ "") (hx : noSep x)
    (ht : noSep t) :
    (osJoin b [x, t]).data = (normTrail b).data ++ (x.data ++ '/' :: t.data) := by
  rw [osJoin_pair hb hx0 hx ht]
  have hs : ("/" : String).data = ['/'] := rfl
  simp [String.data_append, hs, List.append_assoc]

theorem osJoin_single_data (b t : String) (hb : b ≠ "") (ht : noSep t) :
    (osJoin b [t]).data = (normTrail b).data ++ t.data := by
  rw [osJoin_single hb ht]
  simp [String.data_append]

/-! ### First-occurrence splitting -/

theorem append_cons_inj {α : Type _} {c : α} {l1 : List α} :
    ∀ {l2 r1 r2 : List α}, c ∉ l1 → c ∉ l2 →
      l1 ++ c :: r1 = l2 ++ c :: r2 → l1 = l2 ∧ r1 = r2 := by
  induction l1 with
  | nil =>
    intro l2 r1 r2 _ h2 h
    cases l2 with
    | nil => simpa using h
    | cons y ys =>
      simp only [List.nil_append, List.cons_append, List.cons.injEq] at h
      exact absurd (h.1 ▸ List.mem_cons_self y ys) h2
  | cons a as ih =>
    intro l2 r1 r2 h1 h2 h
    cases l2 with
    | nil =>
      simp only [List.nil_append, List.cons_append, List.cons.injEq] at h
      exact absurd (h.1.symm ▸ List.mem_cons_self a as) h1
    | cons y ys =>
      simp only [List.cons_append, List.cons.injEq] at h
      obtain ⟨hay, htail⟩ := h
      have h1' : c ∉ as := fun hm => h1 (List.mem_cons_of_mem _ hm)
      have h2' : c ∉ ys := fun hm => h2 (List.mem_cons_of_mem _ hm)
      obtain ⟨he, hr⟩ := ih h1' h2' htail
      exact ⟨by rw [hay, he], hr⟩

/-! ### Distinctness of the generated candidates -/

theorem osJoin_pair_ne_pair (b x y t : String) (hb : b ≠ "") (hx0 : x ≠ "")
    (hx : noSep x) (hy0 : y ≠ "") (hy : noSep y) (ht : noSep t) (hxy : x ≠ y) :
    osJoin b [x, t] ≠ osJoin b [y, t] := by
  intro h
  have hd := congrArg String.data h
  rw [osJoin_pair_data b x t hb hx0 hx ht, osJoin_pair_data b y t hb hy0 hy ht] at hd
  have h2 := List.append_cancel_left hd
  exact hxy (String.ext (append_cons_inj hx hy h2).1)

theorem osJoin_single_ne_pair (b x t : String) (hb : b ≠ "") (hx0 : x ≠ "")
    (hx : noSep x) (ht : noSep t) :
    osJoin b [t] ≠ osJoin b [x, t] := by
  intro h
  have hd := congrArg String.data h
  rw [osJoin_single_data b t hb ht, osJoin_pair_data b x t hb hx0 hx ht] at hd
  have h2 := List.append_cancel_left hd
  have h3 := congrArg List.length h2
  have hx0' : x.data ≠ [] := data_ne_nil_of_ne_empty hx0
  simp [List.length_append] at h3
  omega

/-! ### Properties of the deduplication pass -/

theorem mem_dedupeAux {x : String} : ∀ (l seen : List String),
    x ∈ dedupeAux seen l ↔ x ∈ l ∧ x ∉ seen := by
  intro l
  induction l with
  | nil => intro seen; simp [dedupeAux]
  | cons a as ih =>
    intro seen
    unfold dedupeAux
    by_cases ha : a ∈ seen
    · rw [if_pos ha, ih]
      constructor
      · rintro ⟨hm, hs⟩
        exact ⟨List.mem_cons_of_mem _ hm, hs⟩
      · rintro ⟨hm, hs⟩
        rcases List.mem_cons.mp hm with rfl | hm'
        · exact absurd ha hs
        · exact ⟨hm', hs⟩
    · rw [if_neg ha]
      simp only [List.mem_cons, ih]
      constructor
      · rintro (rfl | ⟨hm, hs⟩)
        · exact ⟨Or.inl rfl, ha⟩
        · exact ⟨Or.inr hm, fun hx => hs (Or.inr hx)⟩
      · rintro ⟨rfl | hm, hs⟩
        · exact Or.inl rfl
        · by_cases hxa : x = a
          · exact Or.inl hxa
          · exact Or.inr ⟨hm, fun hx => hx.elim hxa hs⟩

theorem nodup_dedupeAux : ∀ (l seen : List String), (dedupeAux seen l).Nodup := by
  intro l
  induction l with
  | nil => intro seen; simp [dedupeAux]
  | cons a as ih =>
    intro seen
    unfold dedupeAux
    by_cases ha : a ∈ seen
    · rw [if_pos ha]; exact ih seen
    · rw [if_neg ha]
      refine List.nodup_cons.mpr ⟨?_, ih _⟩
      intro hmem
      exact ((mem_dedupeAux as (a :: seen)).mp hmem).2 (List.mem_cons_self a seen)

theorem sublist_dedupeAux : ∀ (l seen : List String), List.Sublist (dedupeAux seen l) l := by
  intro l
  induction l with
  | nil => intro seen; simp [dedupeAux]
  | cons a as ih =>
    intro seen
    unfold dedupeAux
    by_cases ha : a ∈ seen
    · rw [if_pos ha]
      exact (ih seen).trans (List.sublist_cons_self a as)
    · rw [if_neg ha]
      exact (ih (a :: seen)).cons₂ a

theorem pairwise_indexOf_dedupeAux : ∀ (l seen : List String),
    (dedupeAux seen l).Pairwise (fun a b => l.indexOf a < l.indexOf b) := by
  intro l
  induction l with
  | nil => intro seen; simp [dedupeAux]
  | cons x xs ih =>
    intro seen
    unfold dedupeAux
    by_cases hx : x ∈ seen
    · rw [if_pos hx]
      refine (ih seen).imp_of_mem ?_
      intro a b ha hb hab
      have ha' : x ≠ a := fun he =>
        ((mem_dedupeAux xs seen).mp ha).2 (by rw [← he]; exact hx)
      have hb' : x ≠ b := fun he =>
        ((mem_dedupeAux xs seen).mp hb).2 (by rw [← he]; exact hx)
      rw [List.indexOf_cons_ne _ ha', List.indexOf_cons_ne _ hb']
      exact Nat.succ_lt_succ hab
    · rw [if_neg hx]
      refine List.pairwise_cons.mpr ⟨?_, ?_⟩
      · intro b hb
        have hb1 := (mem_dedupeAux xs (x :: seen)).mp hb
        have hbx : x ≠ b := fun he => hb1.2 (by rw [← he]; exact List.mem_cons_self x seen)
        rw [List.indexOf_cons_self, List.indexOf_cons_ne _ hbx]
        exact Nat.succ_pos _
      · refine (ih (x :: seen)).imp_of_mem ?_
        intro a b ha hb hab
        have ha' : x ≠ a := fun he =>
          ((mem_dedupeAux xs (x :: seen)).mp ha).2 (by rw [← he]; exact List.mem_cons_self x seen)
        have hb' : x ≠ b := fun he =>
          ((mem_dedupeAux xs (x :: seen)).mp hb).2 (by rw [← he]; exact List.mem_cons_self x seen)
        rw [List.indexOf_cons_ne _ ha', List.indexOf_cons_ne _ hb']
        exact Nat.succ_lt_succ hab

theorem dedupeAux_eq_filter : ∀ (l : List String), l.Nodup → ∀ (seen : List String),
    dedupeAux seen l = l.filter (fun x => decide (x ∉ seen)) := by
  intro l
  induction l with
  | nil => intro _ seen; simp [dedupeAux]
  | cons a as ih =>
    intro hnd seen
    obtain ⟨hna, hnd'⟩ := List.nodup_cons.mp hnd
    unfold dedupeAux
    by_cases ha : a ∈ seen
    · rw [if_pos ha, ih hnd' seen, List.filter_cons]
      simp [ha]
    · rw [if_neg ha, ih hnd' (a :: seen), List.filter_cons]
      simp [ha]
      refine List.filter_congr ?_
      intro y hy
      have hya : y ≠ a := fun he => hna (he ▸ hy)
      simp [List.mem_cons, hya]

theorem dedupe_cons_of_nodup (a : String) (rest : List String) (h : rest.Nodup) :
    dedupe (a :: rest) = a :: rest.filter (fun x => decide (x ≠ a)) := by
  have h0 : dedupe (a :: rest) = a :: dedupeAux [a] rest := by
    simp [dedupe, dedupeAux]
  rw [h0, dedupeAux_eq_filter rest h [a]]
  congr 1
  refine List.filter_congr ?_
  intro y _
  simp

/-! ### Shape of the candidate list -/

theorem raw_paths_eq (b t c : String) :
    raw_paths b t c =
      [osJoin b [c, t], osJoin b [t], osJoin b ["Debug", t], osJoin b ["Release", t],
       osJoin b ["RelWithDebInfo", t], osJoin b ["MinSizeRel", t]] := rfl

theorem rest_nodup (b t : String) (hb : b ≠ "") (ht : noSep t) :
    ([osJoin b [t], osJoin b ["Debug", t], osJoin b ["Release", t],
      osJoin b ["RelWithDebInfo", t], osJoin b ["MinSizeRel", t]] : List String).Nodup := by
  have hfD := osJoin_single_ne_pair b "Debug" t hb (by decide) (by decide) ht
  have hfR := osJoin_single_ne_pair b "Release" t hb (by decide) (by decide) ht
  have hfW := osJoin_single_ne_pair b "RelWithDebInfo" t hb (by decide) (by decide) ht
  have hfM := osJoin_single_ne_pair b "MinSizeRel" t hb (by decide) (by decide) ht
  have hDR := osJoin_pair_ne_pair b "Debug" "Release" t hb (by decide) (by decide)
    (by decide) (by decide) ht (by decide)
  have hDW := osJoin_pair_ne_pair b "Debug" "RelWithDebInfo" t hb (by decide) (by decide)
    (by decide) (by decide) ht (by decide)
  have hDM := osJoin_pair_ne_pair b "Debug" "MinSizeRel" t hb (by decide) (by decide)
    (by decide) (by decide) ht (by decide)
  have hRW := osJoin_pair_ne_pair b "Release" "RelWithDebInfo" t hb (by decide) (by decide)
    (by decide) (by decide) ht (by decide)
  have hRM := osJoin_pair_ne_pair b "Release" "MinSizeRel" t hb (by decide) (by decide)
    (by decide) (by decide) ht (by decide)
  have hWM := osJoin_pair_ne_pair b "RelWithDebInfo" "MinSizeRel" t hb (by decide) (by decide)
    (by decide) (by decide) ht (by decide)
  simp [List.nodup_cons, List.mem_cons, hfD, hfR, hfW, hfM, hDR, hDW, hDM, hRW, hRM, hWM]

theorem candidate_paths_shape (b t c : String) (hb : b ≠ "") (ht : noSep t) :
    candidate_paths b t c =
      osJoin b [c, t] ::
        ([osJoin b [t], osJoin b ["Debug", t], osJoin b ["Release", t],
          osJoin b ["RelWithDebInfo", t], osJoin b ["MinSizeRel", t]].filter
            (fun x => decide (x ≠ osJoin b [c, t]))) := by
  unfold candidate_paths
  rw [raw_paths_eq]
  exact dedupe_cons_of_nodup _ _ (rest_nodup b t hb ht)

theorem candidate_paths_length_of_label (b t c : String) (hb : b ≠ "") (ht : noSep t)
    (hc : c ∈ common_configs) : (candidate_paths b t c).length = 5 := by
  have hfD := osJoin_single_ne_pair b "Debug" t hb (by decide) (by decide) ht
  have hfR := osJoin_single_ne_pair b "Release" t hb (by decide) (by decide) ht
  have hfW := osJoin_single_ne_pair b "RelWithDebInfo" t hb (by decide) (by decide) ht
  have hfM := osJoin_single_ne_pair b "MinSizeRel" t hb (by decide) (by decide) ht
  have hDR := osJoin_pair_ne_pair b "Debug" "Release" t hb (by decide) (by decide)
    (by decide) (by decide) ht (by decide)
  have hDW := osJoin_pair_ne_pair b "Debug" "RelWithDebInfo" t hb (by decide) (by decide)
    (by decide) (by decide) ht (by decide)
  have hDM := osJoin_pair_ne_pair b "Debug" "MinSizeRel" t hb (by decide) (by decide)
    (by decide) (by decide) ht (by decide)
  have hRW := osJoin_pair_ne_pair b "Release" "RelWithDebInfo" t hb (by decide) (by decide)
    (by decide) (by decide) ht (by decide)
  have hRM := osJoin_pair_ne_pair b "Release" "MinSizeRel" t hb (by decide) (by decide)
    (by decide) (by decide) ht (by decide)
  have hWM := osJoin_pair_ne_pair b "RelWithDebInfo" "MinSizeRel" t hb (by decide) (by decide)
    (by decide) (by decide) ht (by decide)
  have hRD := hDR.symm
  have hWD := hDW.symm
  have hMD := hDM.symm
  have hWR := hRW.symm
  have hMR := hRM.symm
  have hMW := hWM.symm
  simp only [common_configs, List.mem_cons, List.not_mem_nil, or_false] at hc
  rcases hc with rfl | rfl | rfl | rfl
  · rw [candidate_paths_shape _ _ _ hb ht]
    simp [List.filter_cons, hfD, hRD, hWD, hMD]
  · rw [candidate_paths_shape _ _ _ hb ht]
    simp [List.filter_cons, hfR, hDR, hWR, hMR]
  · rw [candidate_paths_shape _ _ _ hb ht]
    simp [List.filter_cons, hfW, hDW, hRW, hMW]
  · rw [candidate_paths_shape _ _ _ hb ht]
    simp [List.filter_cons, hfM, hDM, hRM, hWM]

theorem candidate_paths_length_of_not_label (b t c : String) (hb : b ≠ "") (ht : noSep t)
    (hc0 : c ≠ "") (hc : noSep c) (hcD : c ≠ "Debug") (hcR : c ≠ "Release")
    (hcW : c ≠ "RelWithDebInfo") (hcM : c ≠ "MinSizeRel") :
    (candidate_paths b t c).length = 6 := by
  have h1 := osJoin_single_ne_pair b c t hb hc0 hc ht
  have h2 := osJoin_pair_ne_pair b "Debug" c t hb (by decide) (by decide) hc0 hc ht
    (fun he => hcD he.symm)
  have h3 := osJoin_pair_ne_pair b "Release" c t hb (by decide) (by decide) hc0 hc ht
    (fun he => hcR he.symm)
  have h4 := osJoin_pair_ne_pair b "RelWithDebInfo" c t hb (by decide) (by decide) hc0 hc ht
    (fun he => hcW he.symm)
  have h5 := osJoin_pair_ne_pair b "MinSizeRel" c t hb (by decide) (by decide) hc0 hc ht
    (fun he => hcM he.symm)
  rw [candidate_paths_shape _ _ _ hb ht]
  simp [List.filter_cons, h1, h2, h3, h4, h5]

theorem mem_candidate_paths (b t c x : String) :
    x ∈ candidate_paths b t c ↔ x ∈ raw_paths b t c := by
  unfold candidate_paths dedupe
  rw [mem_dedupeAux]
  simp

theorem candidate_paths_ne_nil (b t c : String) : candidate_paths b t c ≠ [] := by
  unfold candidate_paths raw_paths dedupe
  simp [dedupeAux]

theorem get_executable_paths_ne_nil (b t c : String) (w : Bool) :
    get_executable_paths b t c w ≠ [] := by
  unfold get_executable_paths
  cases w <;> simp [candidate_paths_ne_nil b t c]

/-! ### The Windows suffix adjustment -/

theorem addExe_endswith (p : String) : pyEndsWith (pyLower (addExe p)) ".exe" = true := by
  unfold addExe
  by_cases h : pyEndsWith (pyLower p) ".exe" = true
  · rw [if_pos h]; exact h
  · rw [if_neg h]
    unfold pyEndsWith pyLower
    have hd : (String.mk ((p ++ ".exe").data.map Char.toLower)).data
        = p.data.map Char.toLower ++ (".exe" : String).data := by
      have he : (".exe" : String).data.map Char.toLower = (".exe" : String).data := by decide
      simp [String.data_append, List.map_append, he]
    rw [hd, List.isSuffixOf_iff_suffix]
    exact List.suffix_append _ _

/-! ### Behaviour of `create_tag` -/

theorem effectiveMessage_of_missing (tag : String) (message : Option String)
    (hm : message = none ∨ message = some "") :
    effectiveMessage tag message = "Release " ++ tag := by
  rcases hm with rfl | rfl <;> simp [effectiveMessage]

theorem mem_tagAnnotate_create_tag (env : GitEnv) (tag : String) (message : Option String)
    (push : Bool) (t' m' : String)
    (hmem : GitCmd.tagAnnotate t' m' ∈ (create_tag env tag message push).2) :
    t' = tag ∧ m' = effectiveMessage tag message := by
  unfold create_tag get_current_branch tagAndPush at hmem
  cases push <;>
    cases hrev : env.run GitCmd.revParseHead <;>
    cases hpb : env.run (GitCmd.pushBranch env.headBranch) <;>
    cases hta : env.run (GitCmd.tagAnnotate tag (effectiveMessage tag message)) <;>
    cases hpt : env.run (GitCmd.pushTag tag) <;>
    simp [hrev, hpb, hta, hpt] at hmem <;>
    tauto

theorem find?_append_first (p : String → Bool) : ∀ (l1 : List String) (q : String)
    (l2 : List String), (∀ x ∈ l1, p x = false) → p q = true →
    (l1 ++ q :: l2).find? p = some q := by
  intro l1
  induction l1 with
  | nil =>
    intro q l2 _ hq
    simpa using List.find?_cons_of_pos l2 hq
  | cons a as ih =>
    intro q l2 h hq
    have ha : p a = false := h a (List.mem_cons_self a as)
    rw [List.cons_append, List.find?_cons_of_neg _ (by simp [ha])]
    exact ih q l2 (fun x hx => h x (List.mem_cons_of_mem _ hx)) hq

/-! ## The claims -/

/-- Claim C1: for `buildDir="build"`, `targetName="app"`, `config="Release"`
on a non-Windows platform, `get_executable_paths` returns exactly
`["build/Release/app", "build/app", "build/Debug/app",
"build/RelWithDebInfo/app", "build/MinSizeRel/app"]`, in that order. -/
theorem C1_release_scenario :
    get_executable_paths "build" "app" "Release" false =
      ["build/Release/app", "build/app", "build/Debug/app",
       "build/RelWithDebInfo/app", "build/MinSizeRel/app"] := by decide

/-- Claim C2, counterexample: at `buildDir="build"`, `targetName="app"`,
`config="Debug"` the pre-suffix candidate list has 5 entries, not the 4
the claim states. -/
theorem C2_counterexample :
    (candidate_paths "build" "app" "Debug").length = 5 ∧
      ¬ (candidate_paths "build" "app" "Debug").length = 4 := by decide

/-- Claim C2, amended: with `config="Debug"`, any non-empty `buildDir`, and
any `targetName` without path separators, the pre-suffix candidate list has
exactly 5 distinct entries (the `"Debug"` conventional entry collapses with
the first candidate, leaving five). -/
theorem C2_debug_five_entries (b t : String) (hb : b ≠ "") (ht : noSep t) :
    (candidate_paths b t "Debug").length = 5 ∧ (candidate_paths b t "Debug").Nodup :=
  ⟨candidate_paths_length_of_label b t "Debug" hb ht (by decide), nodup_dedupeAux _ _⟩

/-- Witness for claim C2's amended theorem at
`buildDir="build"`, `targetName="app"`. -/
theorem C2_debug_five_entries_witness :
    (("build" : String) ≠ "" ∧ noSep "app") ∧
      ((candidate_paths "build" "app" "Debug").length = 5 ∧
        (candidate_paths "build" "app" "Debug").Nodup) :=
  ⟨⟨by decide, by decide⟩, C2_debug_five_entries "build" "app" (by decide) (by decide)⟩

/-- Claim C3, counterexample: at `buildDir="build"`, `targetName="app"`,
`config="CustomStage"` the pre-suffix candidate list has 6 entries, not the
5 the claim states. -/
theorem C3_counterexample :
    (candidate_paths "build" "app" "CustomStage").length = 6 ∧
      ¬ (candidate_paths "build" "app" "CustomStage").length = 5 := by decide

/-- Claim C3, amended: with `config="CustomStage"`, any non-empty
`buildDir`, and any `targetName` without path separators, the pre-suffix
candidate list has exactly 6 distinct entries (the first candidate is
genuinely distinct and survives deduplication). -/
theorem C3_custom_config_six_entries (b t : String) (hb : b ≠ "") (ht : noSep t) :
    (candidate_paths b t "CustomStage").length = 6 ∧
      (candidate_paths b t "CustomStage").Nodup :=
  ⟨candidate_paths_length_of_not_label b t "CustomStage" hb ht (by decide) (by decide)
      (by decide) (by decide) (by decide) (by decide),
    nodup_dedupeAux _ _⟩

/-- Witness for claim C3's amended theorem at
`buildDir="build"`, `targetName="app"`. -/
theorem C3_custom_config_six_entries_witness :
    (("build" : String) ≠ "" ∧ noSep "app") ∧
      ((candidate_paths "build" "app" "CustomStage").length = 6 ∧
        (candidate_paths "build" "app" "CustomStage").Nodup) :=
  ⟨⟨by decide, by decide⟩, C3_custom_config_six_entries "build" "app" (by decide) (by decide)⟩

/-- Claim C4: for every `buildDir`, `targetName`, `config`, the pre-suffix
list has no duplicates; it is a sublist of the generated candidates with
the same members, and its elements are ordered by the position of their
first occurrence in the generated list, so deduplication keeps the first
occurrence of each distinct path and preserves the relative order of first
occurrences. -/
theorem C4_dedup_invariant (b t c : String) :
    (candidate_paths b t c).Nodup
    ∧ List.Sublist (candidate_paths b t c) (raw_paths b t c)
    ∧ (∀ x, x ∈ candidate_paths b t c ↔ x ∈ raw_paths b t c)
    ∧ (candidate_paths b t c).Pairwise
        (fun x y => (raw_paths b t c).indexOf x < (raw_paths b t c).indexOf y) :=
  ⟨nodup_dedupeAux _ _, sublist_dedupeAux _ _, fun x => mem_candidate_paths b t c x,
    pairwise_indexOf_dedupeAux (raw_paths b t c) []⟩

/-- Claim C5: for all non-empty `buildDir` and `targetName` and any
`config`, the first two candidates generated before deduplication and
platform adjustment are `buildDir/config/targetName` and
`buildDir/targetName`, in that order. -/
theorem C5_first_two_candidates (b t c : String) (hb : b ≠ "") (ht : t ≠ "") :
    (raw_paths b t c).take 2 = [osJoin b [c, t], osJoin b [t]] := rfl

/-- Witness for claim C5 at `buildDir="build"`, `targetName="app"`,
`config="Release"`. -/
theorem C5_first_two_candidates_witness :
    (("build" : String) ≠ "" ∧ ("app" : String) ≠ "") ∧
      (raw_paths "build" "app" "Release").take 2 = ["build/Release/app", "build/app"] :=
  ⟨⟨by decide, by decide⟩, by
    rw [C5_first_two_candidates "build" "app" "Release" (by decide) (by decide)]
    decide⟩

/-- Claim C6: with the Windows flag set, every output path of
`get_executable_paths` ends in `".exe"` case-insensitively; a path already
carrying the suffix in any letter case is returned unchanged by the
adjustment; the adjustment is applied by mapping over the deduplicated
list (so after deduplication); and with the flag unset the deduplicated
list is returned unmodified. -/
theorem C6_windows_suffix (b t c : String) :
    (∀ p ∈ get_executable_paths b t c true, pyEndsWith (pyLower p) ".exe" = true)
    ∧ (∀ p, pyEndsWith (pyLower p) ".exe" = true → addExe p = p)
    ∧ get_executable_paths b t c true = (dedupe (raw_paths b t c)).map addExe
    ∧ get_executable_paths b t c false = dedupe (raw_paths b t c) := by
  refine ⟨?_, ?_, rfl, rfl⟩
  · intro p hp
    have hp' : p ∈ (candidate_paths b t c).map addExe := by
      simpa [get_executable_paths] using hp
    rcases List.mem_map.mp hp' with ⟨q, _, rfl⟩
    exact addExe_endswith q
  · intro p h
    unfold addExe
    rw [if_pos h]

/-- Claim C7: for the tag-creation operation, the exit status is non-zero
exactly when one of the operation's steps (commit push, tag creation, tag
push — the `git rev-parse` branch lookup is not a step: its failure only
skips the commit push) fails; and when no message is supplied (absent or
empty), any annotated tag created carries the auto-generated message
`"Release <tag_name>"`. -/
theorem C7_create_tag_behavior (env : GitEnv) (tag : String) (message : Option String)
    (push : Bool) :
    (main_exit_create env tag message push ≠ 0 ↔
      ∃ c ∈ (create_tag env tag message push).2,
        c ≠ GitCmd.revParseHead ∧ env.run c = false)
    ∧ ((message = none ∨ message = some "") →
        ∀ t' m', GitCmd.tagAnnotate t' m' ∈ (create_tag env tag message push).2 →
          t' = tag ∧ m' = "Release " ++ tag) := by
  constructor
  · unfold main_exit_create create_tag get_current_branch tagAndPush
    cases push <;>
      cases hrev : env.run GitCmd.revParseHead <;>
      cases hpb : env.run (GitCmd.pushBranch env.headBranch) <;>
      cases hta : env.run (GitCmd.tagAnnotate tag (effectiveMessage tag message)) <;>
      cases hpt : env.run (GitCmd.pushTag tag) <;>
      simp [hrev, hpb, hta, hpt]
  · intro hm t' m' hmem
    obtain ⟨h1, h2⟩ := mem_tagAnnotate_create_tag env tag message push t' m' hmem
    exact ⟨h1, by rw [h2, effectiveMessage_of_missing tag message hm]⟩

/-- Claim C8: for the tag-deletion operation, the trace is either the
remote deletion alone or the remote deletion followed by the local
deletion; if the remote deletion fails, the local deletion is never
attempted and the exit status is non-zero; and the exit status is zero
exactly when both deletions succeed. -/
theorem C8_delete_tag_behavior (env : GitEnv) (tag : String) :
    ((delete_tag env tag).2 = [GitCmd.pushDeleteTag tag] ∨
      (delete_tag env tag).2 = [GitCmd.pushDeleteTag tag, GitCmd.tagDelete tag])
    ∧ (env.run (GitCmd.pushDeleteTag tag) = false →
        GitCmd.tagDelete tag ∉ (delete_tag env tag).2 ∧ main_exit_delete env tag ≠ 0)
    ∧ (main_exit_delete env tag = 0 ↔
        env.run (GitCmd.pushDeleteTag tag) = true ∧ env.run (GitCmd.tagDelete tag) = true) := by
  refine ⟨?_, ?_, ?_⟩ <;>
    cases h1 : env.run (GitCmd.pushDeleteTag tag) <;>
    cases h2 : env.run (GitCmd.tagDelete tag) <;>
    simp [delete_tag, main_exit_delete, h1, h2]

/-- Claim C9: the executable chosen by the build orchestration is the first
candidate that the (abstract) filesystem reports as existing; when no
candidate exists, it falls back to the first candidate of the (always
non-empty) list. -/
theorem C9_first_existing_candidate (w : Bool) (ex : String → Bool) (b t c : String) :
    (∀ l1 q l2, get_executable_paths b t c w = l1 ++ q :: l2 →
        (∀ x ∈ l1, ex x = false) → ex q = true →
        choose_exec w ex b t c = q)
    ∧ ((∀ x ∈ get_executable_paths b t c w, ex x = false) →
        ∃ h l, get_executable_paths b t c w = h :: l ∧ choose_exec w ex b t c = h) := by
  constructor
  · intro l1 q l2 heq h1 hq
    unfold choose_exec
    rw [heq, find?_append_first ex l1 q l2 h1 hq]
  · intro hall
    have hnone : (get_executable_paths b t c w).find? ex = none :=
      List.find?_eq_none.mpr (fun x hx => by simp [hall x hx])
    cases hgep : get_executable_paths b t c w with
    | nil => exact absurd hgep (get_executable_paths_ne_nil b t c w)
    | cons h l =>
      refine ⟨h, l, rfl, ?_⟩
      unfold choose_exec
      rw [hnone, hgep]

/-- Claim C10: for non-empty `buildDir`, `targetName`, `config` with
`targetName` and `config` free of path separators, the pre-suffix output
always contains the flat path and the four conventional per-label paths;
its length is 5 when `config` is one of the four labels and 6 otherwise,
so it is never empty. -/
theorem C10_candidate_invariants (b t c : String) (hb : b ≠ "") (ht0 : t ≠ "")
    (ht : noSep t) (hc0 : c ≠ "") (hc : noSep c) :
    (osJoin b [t] ∈ candidate_paths b t c
      ∧ ∀ lbl ∈ common_configs, osJoin b [lbl, t] ∈ candidate_paths b t c)
    ∧ (candidate_paths b t c).length = (if c ∈ common_configs then 5 else 6)
    ∧ candidate_paths b t c ≠ [] := by
  refine ⟨⟨?_, ?_⟩, ?_, candidate_paths_ne_nil b t c⟩
  · rw [mem_candidate_paths, raw_paths_eq]
    simp
  · intro lbl hlbl
    rw [mem_candidate_paths]
    unfold raw_paths
    exact List.mem_append_right _ (List.mem_map_of_mem _ hlbl)
  · by_cases hmem : c ∈ common_configs
    · rw [if_pos hmem]
      exact candidate_paths_length_of_label b t c hb ht hmem
    · rw [if_neg hmem]
      simp only [common_configs, List.mem_cons, List.not_mem_nil, or_false] at hmem
      push_neg at hmem
      exact candidate_paths_length_of_not_label b t c hb ht hc0 hc
        hmem.1 hmem.2.1 hmem.2.2.1 hmem.2.2.2

/-- Witness for claim C10 at `buildDir="build"`, `targetName="app"`,
`config="Release"`. -/
theorem C10_candidate_invariants_witness :
    (("build" : String) ≠ "" ∧ ("app" : String) ≠ "" ∧ noSep "app" ∧
      ("Release" : String) ≠ "" ∧ noSep "Release") ∧
      ((osJoin "build" ["app"] ∈ candidate_paths "build" "app" "Release"
        ∧ ∀ lbl ∈ common_configs,
            osJoin "build" [lbl, "app"] ∈ candidate_paths "build" "app" "Release")
      ∧ (candidate_paths "build" "app" "Release").length =
          (if "Release" ∈ common_configs then 5 else 6)
      ∧ candidate_paths "build" "app" "Release" ≠ []) :=
  ⟨⟨by decide, by decide, by decide, by decide, by decide⟩,
    C10_candidate_invariants "build" "app" "Release"
      (by decide) (by decide) (by decide) (by decide) (by decide)⟩
